import Mathlib

/-!
# CardScanner: the detection pipeline of `main.go`

A Go `string` is read as the list of its characters (the text is taken to be valid
UTF-8).  The patterns only test ASCII characters (digits, space, hyphen, word
characters), and `isValidLuhn`, which indexes bytes, is only handed strings of ASCII
characters here, for which byte positions and character positions coincide.

The package-level patterns are values of a small regular-expression syntax `Re`, run by
a backtracking matcher that lists every way of matching in priority order.  This is
the leftmost-first rule of Go's `regexp`: among the matches that start earliest, the
one reported is the first one a backtracking search finds.  `FindAllString` follows
the loop of `(*Regexp).allMatches`.

`crypto/sha256` is a library: the digest function is a parameter of `scanText`.  The
value of `scanText` is the sequence of lines it prints, each given by the arguments of
its `Printf` call.
-/

namespace CardScanner

/-- A Go string as a list of characters. -/
abbrev Str := List Char

/-- A digest as returned by `sha256.Sum256`. -/
abbrev Digest := List Nat

/-! ## Character classes of the patterns -/

/-- The class `\d` of Go's `regexp`: ASCII `0`-`9`. -/
def isDigit (c : Char) : Bool := decide (48 ≤ c.toNat) && decide (c.toNat ≤ 57)

/-- The class `[ -]`: a space or a hyphen. -/
def isSep (c : Char) : Bool := c == ' ' || c == '-'

/-- Word characters of `\b` in Go's `regexp`: ASCII `[0-9A-Za-z_]`. -/
def isWordChar (c : Char) : Bool :=
  isDigit c || (decide (65 ≤ c.toNat) && decide (c.toNat ≤ 90)) ||
    (decide (97 ≤ c.toNat) && decide (c.toNat ≤ 122)) || c == '_'

/-! ## The matcher -/

/-- The regular-expression syntax the patterns of `main.go` are written in. -/
inductive Re where
  | cls (p : Char → Bool)
  | cat (a b : Re)
  | lazyStar (a : Re)
  | rep (a : Re) (lo hi : Nat)
  | wordBoundary
  | beginText

/-- A position in the text: the characters already passed (nearest first) and
the characters still ahead. -/
structure Cursor where
  before : List Char
  after : List Char
deriving DecidableEq

/-- Offset of the cursor from the beginning of the text. -/
def Cursor.pos (c : Cursor) : Nat := c.before.length

/-- Consume one character of class `p`. -/
def step (p : Char → Bool) (c : Cursor) : List Cursor :=
  match c.after with
  | [] => []
  | x :: xs => if p x then [⟨x :: c.before, xs⟩] else []

/-- The assertion `\b`: exactly one of the two neighbouring characters is a word
character (a missing neighbour counts as a non-word character). -/
def atWordBoundary (c : Cursor) : Bool :=
  (match c.before with | [] => false | x :: _ => isWordChar x) !=
    (match c.after with | [] => false | x :: _ => isWordChar x)

/-- Non-greedy repetition `a*?`: leaving the loop is preferred to another
iteration.  An iteration that consumes nothing is not repeated, so the number of
characters ahead bounds the number of iterations. -/
def lazyStarRun (f : Cursor → List Cursor) : Nat → Cursor → List Cursor
  | 0, c => [c]
  | n + 1, c =>
    c :: (List.filter (fun d => decide (d.after.length < c.after.length)) (f c)).flatMap
      (lazyStarRun f n)

/-- Greedy counted repetition `a{lo,hi}`: another iteration is preferred to
leaving the loop. -/
def repRun (f : Cursor → List Cursor) : Nat → Nat → Cursor → List Cursor
  | _, 0, c => [c]
  | 0, hi + 1, c => (f c).flatMap (repRun f 0 hi) ++ [c]
  | lo + 1, hi + 1, c => (f c).flatMap (repRun f lo hi)

/-- All ways of matching `re` starting at cursor `c`, as the cursors reached, in
priority order. -/
def Re.run : Re → Cursor → List Cursor
  | .cls p, c => step p c
  | .cat a b, c => (a.run c).flatMap b.run
  | .lazyStar a, c => lazyStarRun a.run c.after.length c
  | .rep a lo hi, c => repRun a.run lo hi c
  | .wordBoundary, c => if atWordBoundary c then [c] else []
  | .beginText, c => if c.before.isEmpty then [c] else []

/-- Leftmost-first search from a position onwards: the first start position at
which the pattern matches, with the preferred match there. -/
def search (re : Re) (before : List Char) : List Char → Option (Cursor × Cursor)
  | [] => (re.run ⟨before, []⟩).head?.map (fun e => (⟨before, []⟩, e))
  | x :: xs =>
    match (re.run ⟨before, x :: xs⟩).head? with
    | some e => some (⟨before, x :: xs⟩, e)
    | none => search re (x :: before) xs

/-- Go's `(*Regexp).MatchString`. -/
def MatchString (re : Re) (s : Str) : Bool := (search re [] s).isSome

/-- Go's `(*Regexp).allMatches`: successive non-overlapping matches as
`(start, end)` offsets.  The first argument is the iteration bound `n`, `cur` is
`pos` and `prevMatchEnd` is `none` for `-1`. -/
def allMatches (re : Re) : Nat → Cursor → Option Nat → List (Nat × Nat)
  | 0, _, _ => []
  | n + 1, cur, prevMatchEnd =>
    match search re cur.before cur.after with
    | none => []
    | some (st, en) =>
      if en.pos = cur.pos then
        let out := if prevMatchEnd = some st.pos then [] else [(st.pos, en.pos)]
        match cur.after with
        | [] => out
        | x :: xs => out ++ allMatches re n ⟨x :: cur.before, xs⟩ (some en.pos)
      else (st.pos, en.pos) :: allMatches re n en (some en.pos)

/-- Go's `(*Regexp).FindAllStringIndex(s, -1)`. -/
def FindAllStringIndex (re : Re) (s : Str) : List (Nat × Nat) :=
  allMatches re (s.length + 1) ⟨[], s⟩ none

/-- The substring `s[i:j]`. -/
def slice (s : Str) (i j : Nat) : Str := (s.drop i).take (j - i)

/-- Go's `(*Regexp).FindAllString(s, -1)`. -/
def FindAllString (re : Re) (s : Str) : List Str :=
  (FindAllStringIndex re s).map (fun m => slice s m.1 m.2)

/-! ## The patterns of `main.go` -/

/-- The pattern `(?:\b(?:\d[ -]*?){13,19}\b)`. -/
def cardPattern : Re :=
  .cat .wordBoundary (.cat (.rep (.cat (.cls isDigit) (.lazyStar (.cls isSep))) 13 19) .wordBoundary)

/-- The pattern `^4`. -/
def visaPrefix : Re := .cat .beginText (.cls (fun c => c == '4'))

/-- The pattern `^5[1-5]`. -/
def mcPrefix : Re :=
  .cat .beginText (.cat (.cls (fun c => c == '5'))
    (.cls (fun c => decide (49 ≤ c.toNat) && decide (c.toNat ≤ 53))))

/-! ## Luhn validation -/

/-- The call `strconv.Atoi(string(number[i]))` with its error dropped: the digit
value, and `0` for any other character. -/
def atoi (c : Char) : Nat := if isDigit c then c.toNat - 48 else 0

/-- The loop of `isValidLuhn`, over the characters from the last to the first,
with the running `sum` and the flag `alt`. -/
def luhnLoop : List Char → Nat → Bool → Nat
  | [], sum, _ => sum
  | c :: cs, sum, alt =>
    let n := atoi c
    let n := if alt then (if n * 2 > 9 then n * 2 - 9 else n * 2) else n
    luhnLoop cs (sum + n) (!alt)

/-- The function `isValidLuhn`. -/
def isValidLuhn (number : Str) : Bool := luhnLoop number.reverse 0 false % 10 == 0

/-! ## Classification and scanning -/

/-- The function `detectType`. -/
def detectType (number : Str) : String :=
  if MatchString visaPrefix number then "Visa"
  else if MatchString mcPrefix number then "MasterCard"
  else "Unknown"

/-- Go's `strings.Split(text, sep)` for a one-character separator. -/
def split (sep : Char) : Str → List Str
  | [] => [[]]
  | c :: cs =>
    if c = sep then [] :: split sep cs
    else
      match split sep cs with
      | [] => [[c]]
      | l :: ls => (c :: l) :: ls

/-- Go's `strings.ReplaceAll(s, old, "")` for a one-character `old`. -/
def removeAll (old : Char) (s : Str) : Str := s.filter (fun c => c != old)

/-- One line written by `scanText`: the arguments of its two `Printf` calls. -/
inductive Finding where
  | high (path : Str) (line : Nat) (card : Str) (cardType : String) (hash : Digest)
  | low (path : Str) (line : Nat) (card : Str)
deriving DecidableEq

/-- The normalisation `clean` computed in `scanText`. -/
def clean (m : Str) : Str := removeAll '-' (removeAll ' ' m)

/-- The inner loop of `scanText` over the matches of line `lineNo`; `out` is what
has been printed so far. -/
def scanMatches (sha256 : Str → Digest) (path : Str) (lineNo : Nat) :
    List Str → List Finding → List Finding
  | [], out => out
  | m :: ms, out =>
    if isValidLuhn (clean m) then
      scanMatches sha256 path lineNo ms
        (out ++ [.high path lineNo m (detectType (clean m)) (sha256 (clean m))])
    else
      scanMatches sha256 path lineNo ms (out ++ [.low path lineNo m])

/-- The outer loop of `scanText` over the lines; `i` is the loop index. -/
def scanLines (sha256 : Str → Digest) (path : Str) :
    Nat → List Str → List Finding → List Finding
  | _, [], out => out
  | i, line :: rest, out =>
    scanLines sha256 path (i + 1) rest
      (scanMatches sha256 path (i + 1) (FindAllString cardPattern line) out)

/-- The function `scanText`; the result is the sequence of lines printed. -/
def scanText (sha256 : Str → Digest) (path : Str) (text : Str) : List Finding :=
  scanLines sha256 path 0 (split '\n' text) []

/-! ## Auxiliary definitions used in the proofs -/

/-- The cursors reached by `[ -]*?`-style loops over a class `p`: the current
position first, then one further character of class `p` at a time. -/
def starCls (p : Char → Bool) : List Char → List Char → List Cursor
  | b, [] => [⟨b, []⟩]
  | b, x :: xs => ⟨b, x :: xs⟩ :: (if p x then starCls p (x :: b) xs else [])

/-- A deterministic scanner for the body of `cardPattern` after its first digit.
`inRun` tells whether the character just passed is a digit (otherwise it is a
separator); `lo` digits are still required and `hi` still allowed. -/
def scanFrom : Bool → Nat → Nat → List Char → List Char → Option Cursor
  | inRun, lo, _, b, [] => if inRun ∧ lo = 0 then some ⟨b, []⟩ else none
  | inRun, lo, hi, b, x :: xs =>
    if isDigit x then
      (if hi = 0 then none else scanFrom true (lo - 1) (hi - 1) (x :: b) xs)
    else if isSep x then
      (if inRun ∧ lo = 0 then some ⟨b, x :: xs⟩ else scanFrom false lo hi (x :: b) xs)
    else if inRun ∧ lo = 0 ∧ isWordChar x = false then some ⟨b, x :: xs⟩ else none

/-- The match of `cardPattern` that starts exactly at the cursor `⟨b, a⟩`. -/
def matchAt (b a : List Char) : Option Cursor :=
  match a with
  | [] => none
  | d :: rest =>
    if isDigit d ∧ atWordBoundary ⟨b, d :: rest⟩ then scanFrom true 12 18 (d :: b) rest
    else none

/-- The unit `\d[ -]*?` repeated by `cardPattern`. -/
def cardUnit : Re := .cat (.cls isDigit) (.lazyStar (.cls isSep))

/-- Number of digit characters in a string. -/
def digitCount (w : Str) : Nat := w.countP isDigit

/-- The shape of a candidate: it begins and ends with a digit, holds only digits,
spaces and hyphens, and has between 13 and 19 digits. -/
def CandShape (w : Str) : Prop :=
  (∃ d, w.head? = some d ∧ isDigit d = true) ∧
  (∃ d, w.getLast? = some d ∧ isDigit d = true) ∧
  (∀ c ∈ w, isDigit c = true ∨ isSep c = true) ∧
  13 ≤ digitCount w ∧ digitCount w ≤ 19

/-- Whether a string holds two adjacent separator characters. -/
def hasAdjacentSeps : Str → Bool
  | [] => false
  | [_] => false
  | a :: b :: rest => (isSep a && isSep b) || hasAdjacentSeps (b :: rest)

/-! ## Test vectors -/

/-- A valid Visa test number. -/
def visaPlain : Str := "4111111111111111".toList

/-- A valid MasterCard test number. -/
def mcPlain : Str := "5500005555555559".toList

/-- A number that fails the checksum. -/
def badChecksum : Str := "4111111111111112".toList

/-- A thirteen-digit number that fails the checksum. -/
def thirteenDigits : Str := "1234567890123".toList

/-- A valid number with neither a Visa nor a MasterCard prefix. -/
def discoverPlain : Str := "6011000000000004".toList

/-- The Visa test number in groups separated by spaces. -/
def visaSpaced : Str := "4111 1111 1111 1111".toList

/-- The Visa test number in groups separated by hyphens. -/
def visaHyphen : Str := "4111-1111-1111-1111".toList

/-- The Visa test number with two spaces after the first group. -/
def visaDoubleSpaced : Str := "4111  1111 1111 1111".toList

/-- Twelve digits. -/
def twelveOnes : Str := "111111111111".toList

/-- Two spaces. -/
def twoSpaces : Str := "  ".toList

/-- A line of text around the spaced Visa test number. -/
def cardLine : Str := "card: 4111 1111 1111 1111".toList

/-- A digit-free prefix ending in a non-word character. -/
def padLeft : Str := "id: ".toList

/-- A digit-free suffix beginning with a non-word character. -/
def padRight : Str := " ok".toList

/-- A run of nineteen digits. -/
def nineteenDigits : Str := "1234567890123456789".toList

/-- A line that is a run of digits in which two consecutive digits are separated by
nothing, by one space or by one hyphen. -/
def sepDigits : Str → Bool
  | [] => false
  | [d] => isDigit d
  | d :: s :: rest => isDigit d && (if isSep s then sepDigits rest else sepDigits (s :: rest))

/-- What may follow a digit of such a line: nothing, or an optional separator and the
rest of the run. -/
def contShape : Str → Bool
  | [] => true
  | s :: rest => if isSep s then sepDigits rest else sepDigits (s :: rest)

/-- The shortest prefix of a string that holds `need` digits and is not directly
followed by a digit (the whole string when there is none). -/
def takeCard : Nat → Str → Str
  | _, [] => []
  | need, c :: cs =>
    if isDigit c then c :: takeCard (need - 1) cs
    else if need = 0 then []
    else c :: takeCard need cs

/-- Fourteen digits with a space after the thirteenth. -/
def lateSeparator : Str := "1234567890123 4".toList

/-- The Visa test number with a space and a hyphen as separators. -/
def visaMixed : Str := "4111 1111-1111 1111".toList

/-- Line number printed in a finding. -/
def Finding.line : Finding → Nat
  | .high _ n _ _ _ => n
  | .low _ n _ => n

/-- Raw match printed in a finding. -/
def Finding.card : Finding → Str
  | .high _ _ m _ _ => m
  | .low _ _ m => m

/-- Source identifier printed in a finding. -/
def Finding.path : Finding → Str
  | .high p _ _ _ _ => p
  | .low p _ _ => p

/-- Whether the finding is tagged `[HIGH]` (otherwise `[LOW]`). -/
def Finding.isHigh : Finding → Bool
  | .high _ _ _ _ _ => true
  | .low _ _ _ => false

/-- Card type printed in a finding, if any. -/
def Finding.cardType : Finding → Option String
  | .high _ _ _ t _ => some t
  | .low _ _ _ => none

/-- Digest printed in a finding, if any. -/
def Finding.hash : Finding → Option Digest
  | .high _ _ _ _ h => some h
  | .low _ _ _ => none

/-- The finding printed by the body of the inner loop of `scanText` for the match `m`
on line `lineNo`. -/
def report (sha256 : Str → Digest) (path : Str) (lineNo : Nat) (m : Str) : Finding :=
  if isValidLuhn (clean m) then .high path lineNo m (detectType (clean m)) (sha256 (clean m))
  else .low path lineNo m

/-- Where the matches reported by `scanText` lie: line number, start offset and end
offset within the line, in the order of the two loops of `scanText`. -/
def matchLocs (text : Str) : List (Nat × Nat × Nat) :=
  (split '\n' text).enum.flatMap
    (fun p => (FindAllStringIndex cardPattern p.2).map (fun m => (p.1 + 1, m.1, m.2)))

/-- The text of the end-to-end scenario. -/
def scenario : Str :=
  "no data here\ncard: 4111 1111 1111 1111\nbad 1234567890123 entry".toList

/-- A stand-in digest function: the character codes of its argument. -/
def codesDigest (s : Str) : Digest := s.map Char.toNat

/-- A source identifier. -/
def samplePath : Str := "a.txt".toList

/-- First line of the scenario. -/
def scenarioLine1 : Str := "no data here".toList

/-- Third line of the scenario. -/
def scenarioLine3 : Str := "bad 1234567890123 entry".toList

/-! ## The Luhn total as the specification words it -/

/-- Value of a digit character. -/
def digitValue (c : Char) : Nat := c.toNat - 48

/-- Contribution of the digit `d` standing `j` places from the right (the rightmost
digit has `j = 0`): every second digit, starting with the second from the right, is
doubled and reduced by 9 when the doubled value exceeds 9. -/
def luhnTerm (j d : Nat) : Nat :=
  if j % 2 = 1 then (if 2 * d > 9 then 2 * d - 9 else 2 * d) else d

/-- The standard Luhn total of a digit string: the digits are taken from the rightmost
to the leftmost and their contributions are summed. -/
def luhnTotal (D : Str) : Nat :=
  (D.reverse.enum.map (fun p => luhnTerm p.1 (digitValue p.2))).sum

/-- What one pass through the body of the loop of `isValidLuhn` adds to `sum`. -/
def luhnStep (alt : Bool) (c : Char) : Nat :=
  if alt then (if atoi c * 2 > 9 then atoi c * 2 - 9 else atoi c * 2) else atoi c

/-! ## Facts about the character classes -/

theorem isSep_not_digit {c : Char} (h : isSep c = true) : isDigit c = false := by
  simp only [isSep, Bool.or_eq_true, beq_iff_eq] at h
  rcases h with h | h <;> subst h <;> decide

theorem isSep_not_word {c : Char} (h : isSep c = true) : isWordChar c = false := by
  simp only [isSep, Bool.or_eq_true, beq_iff_eq] at h
  rcases h with h | h <;> subst h <;> decide

theorem isDigit_word {c : Char} (h : isDigit c = true) : isWordChar c = true := by
  simp [isWordChar, h]

/-! ## The matcher on `cardPattern` -/

theorem lazyStarRun_step (p : Char → Bool) :
    ∀ (n : Nat) (b a : List Char), a.length ≤ n →
      lazyStarRun (step p) n ⟨b, a⟩ = starCls p b a := by
  intro n
  induction n with
  | zero =>
    intro b a h
    have : a = [] := List.length_eq_zero.mp (Nat.le_zero.mp h)
    subst this
    simp [lazyStarRun, starCls]
  | succ n ih =>
    intro b a h
    cases a with
    | nil => simp [lazyStarRun, starCls, step]
    | cons x xs =>
      have hx : xs.length ≤ n := by simpa using h
      by_cases hp : p x = true
      · simp [lazyStarRun, starCls, step, hp, ih _ _ hx]
      · simp [lazyStarRun, starCls, step, hp]

theorem cls_run (p : Char → Bool) : (Re.cls p).run = step p := by
  funext c
  simp [Re.run]

theorem lazyStar_cls_run (p : Char → Bool) (b a : List Char) :
    (Re.lazyStar (.cls p)).run ⟨b, a⟩ = starCls p b a := by
  have h : (Re.lazyStar (.cls p)).run ⟨b, a⟩ = lazyStarRun (Re.cls p).run a.length ⟨b, a⟩ := by
    simp [Re.run]
  rw [h, cls_run, lazyStarRun_step p _ _ _ (Nat.le_refl _)]

theorem cardUnit_run (b a : List Char) :
    cardUnit.run ⟨b, a⟩ =
      match a with
      | [] => []
      | d :: rest => if isDigit d then starCls isSep (d :: b) rest else [] := by
  have h : cardUnit.run ⟨b, a⟩ =
      ((Re.cls isDigit).run ⟨b, a⟩).flatMap (Re.lazyStar (.cls isSep)).run := by
    simp [cardUnit, Re.run]
  rw [h, cls_run]
  cases a with
  | nil => simp [step]
  | cons d rest =>
    by_cases hd : isDigit d = true
    · simp [step, hd, lazyStar_cls_run]
    · simp [step, hd]

theorem repRun_zero_hi (f : Cursor → List Cursor) (lo : Nat) (c : Cursor) :
    repRun f lo 0 c = [c] := by
  cases lo <;> simp [repRun]

theorem repRun_nodigit (lo hi : Nat) (b a : List Char)
    (h : ∀ d rest, a = d :: rest → isDigit d = false) :
    repRun cardUnit.run lo hi ⟨b, a⟩ = if lo = 0 ∨ hi = 0 then [⟨b, a⟩] else [] := by
  have hu : cardUnit.run ⟨b, a⟩ = [] := by
    rw [cardUnit_run]
    cases a with
    | nil => rfl
    | cons d rest => simp [h d rest rfl]
  cases hi with
  | zero => simp [repRun_zero_hi]
  | succ hi =>
    cases lo with
    | zero => simp [repRun, hu]
    | succ lo => simp [repRun, hu]

theorem repRun_digit (lo hi : Nat) (b : List Char) (d : Char) (rest : List Char)
    (hd : isDigit d = true) :
    repRun cardUnit.run lo (hi + 1) ⟨b, d :: rest⟩ =
      (starCls isSep (d :: b) rest).flatMap (repRun cardUnit.run (lo - 1) hi) ++
        (if lo = 0 then [⟨b, d :: rest⟩] else []) := by
  have hu : cardUnit.run ⟨b, d :: rest⟩ = starCls isSep (d :: b) rest := by
    rw [cardUnit_run]; simp [hd]
  cases lo with
  | zero => simp [repRun, hu]
  | succ lo => simp [repRun, hu]

theorem find_rep_scanFrom :
    ∀ (rest : List Char) (inRun : Bool) (lo hi : Nat) (b : List Char),
      lo ≤ hi →
      (inRun = true → ∃ d b', b = d :: b' ∧ isWordChar d = true) →
      (inRun = false → 1 ≤ lo) →
      ((starCls isSep b rest).flatMap (repRun cardUnit.run lo hi)).find? atWordBoundary =
        scanFrom inRun lo hi b rest := by
  intro rest
  induction rest with
  | nil =>
    intro inRun lo hi b hle hrun hsep
    have hnd : ∀ d r, ([] : List Char) = d :: r → isDigit d = false := by
      intro d r h; cases h
    simp only [starCls, List.flatMap_cons, List.flatMap_nil, List.append_nil,
      repRun_nodigit lo hi b [] hnd, scanFrom]
    cases inRun with
    | true =>
      obtain ⟨d, b', rfl, hw⟩ := hrun rfl
      by_cases h0 : lo = 0
      · simp [h0, atWordBoundary, hw]
      · have : ¬ hi = 0 := by omega
        simp [h0, this]
    | false =>
      have := hsep rfl
      have h0 : ¬ lo = 0 := by omega
      have h1 : ¬ hi = 0 := by omega
      simp [h0, h1]
  | cons x xs ih =>
    intro inRun lo hi b hle hrun hsep
    by_cases hx : isDigit x = true
    · have hns : isSep x = false := by
        cases h : isSep x with
        | false => rfl
        | true => rw [isSep_not_digit h] at hx; cases hx
      have hxw := isDigit_word hx
      cases hi with
      | zero =>
        have hlo : lo = 0 := by omega
        subst hlo
        cases inRun with
        | true =>
          obtain ⟨d, b', rfl, hw⟩ := hrun rfl
          simp [starCls, hns, repRun_zero_hi, scanFrom, hx, atWordBoundary, hw, hxw]
        | false => have := hsep rfl; omega
      | succ hi =>
        have hstep := ih true (lo - 1) hi (x :: b) (by omega) (fun _ => ⟨x, b, rfl, hxw⟩)
          (fun h => by cases h)
        simp only [starCls, hns, List.flatMap_cons, List.flatMap_nil, List.append_nil,
          repRun_digit lo hi b x xs hx, List.find?_append, hstep, scanFrom, hx, if_true]
        cases inRun with
        | true =>
          obtain ⟨d, b', rfl, hw⟩ := hrun rfl
          by_cases h0 : lo = 0
          · simp [h0, atWordBoundary, hw, hxw]
          · simp [h0]
        | false =>
          have := hsep rfl
          have h0 : ¬ lo = 0 := by omega
          simp [h0]
    · have hxf : isDigit x = false := by simpa using hx
      have hnd : ∀ d r, x :: xs = d :: r → isDigit d = false := by
        intro d r h; cases h; exact hxf
      by_cases hs : isSep x = true
      · have hxw := isSep_not_word hs
        simp only [starCls, hs, if_true, List.flatMap_cons, List.find?_append,
          repRun_nodigit lo hi b (x :: xs) hnd, scanFrom, hxf]
        cases inRun with
        | true =>
          obtain ⟨d, b', rfl, hw⟩ := hrun rfl
          by_cases h0 : lo = 0
          · simp [h0, atWordBoundary, hw, hxw]
          · have h1 : ¬ hi = 0 := by omega
            have hstep := ih false lo hi (x :: d :: b') hle (fun h => by cases h)
              (fun _ => by omega)
            simp [h0, h1, hstep]
        | false =>
          have := hsep rfl
          have h0 : ¬ lo = 0 := by omega
          have h1 : ¬ hi = 0 := by omega
          have hstep := ih false lo hi (x :: b) hle (fun h => by cases h) (fun _ => by omega)
          simp [h0, h1, hstep]
      · have hsf : isSep x = false := by simpa using hs
        simp only [starCls, hsf, List.flatMap_cons, List.flatMap_nil, List.append_nil,
          repRun_nodigit lo hi b (x :: xs) hnd, scanFrom, hxf]
        cases inRun with
        | true =>
          obtain ⟨d, b', rfl, hw⟩ := hrun rfl
          by_cases h0 : lo = 0
          · cases hxw : isWordChar x <;> simp [h0, atWordBoundary, hw, hxw]
          · have h1 : ¬ hi = 0 := by omega
            simp [h0, h1]
        | false =>
          have := hsep rfl
          have h0 : ¬ lo = 0 := by omega
          have h1 : ¬ hi = 0 := by omega
          simp [h0, h1]

theorem cardPattern_run (c : Cursor) :
    cardPattern.run c =
      if atWordBoundary c then (repRun cardUnit.run 13 19 c).filter atWordBoundary else [] := by
  have h : ∀ l : List Cursor,
      l.flatMap (fun c => if atWordBoundary c = true then [c] else []) =
        l.filter atWordBoundary := by
    intro l
    induction l with
    | nil => rfl
    | cons x xs ih =>
      cases hx : atWordBoundary x <;> simp [List.filter, hx, ih]
  by_cases hb : atWordBoundary c = true
  · simp only [cardPattern, Re.run, hb, if_true, List.flatMap_cons, List.flatMap_nil,
      List.append_nil]
    exact h _
  · simp [cardPattern, Re.run, hb]

theorem head_filter_find {α : Type} (p : α → Bool) (l : List α) :
    (l.filter p).head? = l.find? p := by
  induction l with
  | nil => rfl
  | cons x xs ih => cases hx : p x <;> simp [List.filter, List.find?, hx, ih]

theorem cardPattern_head (b a : List Char) :
    (cardPattern.run ⟨b, a⟩).head? = matchAt b a := by
  rw [cardPattern_run]
  cases a with
  | nil =>
    have hnd : ∀ d r, ([] : List Char) = d :: r → isDigit d = false := by
      intro d r h; cases h
    simp [matchAt, repRun_nodigit 13 19 b [] hnd]
  | cons d rest =>
    by_cases hd : isDigit d = true
    · by_cases hb : atWordBoundary ⟨b, d :: rest⟩ = true
      · have hf := find_rep_scanFrom rest true 12 18 (d :: b) (by omega)
          (fun _ => ⟨d, b, rfl, isDigit_word hd⟩) (fun h => by cases h)
        simp only [matchAt, hd, hb, and_self, if_true, head_filter_find,
          repRun_digit 13 18 b d rest hd]
        simpa using hf
      · simp [matchAt, hb]
    · have hdf : isDigit d = false := by simpa using hd
      have hnd : ∀ x r, d :: rest = x :: r → isDigit x = false := by
        intro x r h; cases h; exact hdf
      simp [matchAt, hdf, repRun_nodigit 13 19 b (d :: rest) hnd]

theorem scanFrom_sound :
    ∀ (rest : List Char) (inRun : Bool) (lo hi : Nat) (b : List Char) (e : Cursor),
      scanFrom inRun lo hi b rest = some e →
      ∃ w, rest = w ++ e.after ∧ e.before = w.reverse ++ b ∧
        (w = [] → inRun = true) ∧
        (∀ x, w.getLast? = some x → isDigit x = true) ∧
        (∀ c ∈ w, isDigit c = true ∨ isSep c = true) ∧
        lo ≤ digitCount w ∧ digitCount w ≤ hi := by
  intro rest
  induction rest with
  | nil =>
    intro inRun lo hi b e h
    simp only [scanFrom] at h
    split at h
    · rename_i hc
      cases h
      exact ⟨[], rfl, rfl, fun _ => hc.1, by simp, by simp, by simp [digitCount, hc.2],
        by simp [digitCount]⟩
    · cases h
  | cons x xs ih =>
    intro inRun lo hi b e h
    have hcons : ∀ (st : Bool) (lo' hi' : Nat) (w : List Char),
        (st = true ↔ isDigit x = true) → (isDigit x = true ∨ isSep x = true) →
        lo ≤ lo' + (if isDigit x then 1 else 0) →
        hi' + (if isDigit x then 1 else 0) ≤ hi →
        (xs = w ++ e.after ∧ e.before = w.reverse ++ (x :: b) ∧
          (w = [] → st = true) ∧
          (∀ y, w.getLast? = some y → isDigit y = true) ∧
          (∀ c ∈ w, isDigit c = true ∨ isSep c = true) ∧
          lo' ≤ digitCount w ∧ digitCount w ≤ hi') →
        ∃ w, x :: xs = w ++ e.after ∧ e.before = w.reverse ++ b ∧
          (w = [] → inRun = true) ∧
          (∀ y, w.getLast? = some y → isDigit y = true) ∧
          (∀ c ∈ w, isDigit c = true ∨ isSep c = true) ∧
          lo ≤ digitCount w ∧ digitCount w ≤ hi := by
      intro st lo' hi' w hst hx hlo hhi ⟨h1, h2, h3, h4, h5, h6, h7⟩
      refine ⟨x :: w, by simp [h1], by simp [h2], by simp, ?_, ?_, ?_, ?_⟩
      · intro y hy
        cases w with
        | nil =>
          simp at hy
          subst hy
          exact hst.mp (h3 rfl)
        | cons z zs => exact h4 y (by simpa using hy)
      · intro c hc
        rcases List.mem_cons.mp hc with rfl | hc
        · exact hx
        · exact h5 c hc
      · by_cases hd : isDigit x = true
        · simp [digitCount, List.countP_cons, hd] at *; omega
        · simp [digitCount, List.countP_cons, hd] at *; omega
      · by_cases hd : isDigit x = true
        · simp [digitCount, List.countP_cons, hd] at *; omega
        · simp [digitCount, List.countP_cons, hd] at *; omega
    simp only [scanFrom] at h
    by_cases hx : isDigit x = true
    · simp only [hx, if_true] at h
      by_cases h0 : hi = 0
      · simp [h0] at h
      · simp only [h0, if_false] at h
        obtain ⟨w, hw⟩ := ih true (lo - 1) (hi - 1) (x :: b) e h
        exact hcons true (lo - 1) (hi - 1) w (by simp [hx]) (Or.inl hx)
          (by simp [hx]; omega) (by simp [hx]; omega) hw
    · have hxf : isDigit x = false := by simpa using hx
      simp only [hxf, Bool.false_eq_true, if_false] at h
      by_cases hs : isSep x = true
      · simp only [hs, if_true] at h
        by_cases hc : inRun = true ∧ lo = 0
        · simp only [hc, and_self, if_true] at h
          cases h
          exact ⟨[], rfl, rfl, fun _ => hc.1, by simp, by simp, by simp [digitCount, hc.2],
            by simp [digitCount]⟩
        · rw [if_neg hc] at h
          obtain ⟨w, hw⟩ := ih false lo hi (x :: b) e h
          exact hcons false lo hi w (by simp [hxf]) (Or.inr hs)
            (by simp [hxf]) (by simp [hxf]) hw
      · simp only [hs, if_false] at h
        by_cases hc : inRun = true ∧ lo = 0 ∧ isWordChar x = false
        · rw [if_pos hc] at h
          cases h
          exact ⟨[], rfl, rfl, fun _ => hc.1, by simp, by simp, by simp [digitCount, hc.2.1],
            by simp [digitCount]⟩
        · rw [if_neg hc] at h
          cases h

theorem matchAt_sound (b a : List Char) (e : Cursor) (h : matchAt b a = some e) :
    ∃ w, a = w ++ e.after ∧ e.before = w.reverse ++ b ∧ CandShape w := by
  cases a with
  | nil => simp [matchAt] at h
  | cons d rest =>
    simp only [matchAt] at h
    split at h
    · rename_i hc
      obtain ⟨w, h1, h2, _, h4, h5, h6, h7⟩ := scanFrom_sound rest true 12 18 (d :: b) e h
      refine ⟨d :: w, by simp [h1], by simp [h2], ⟨d, rfl, hc.1⟩, ?_, ?_, ?_, ?_⟩
      · cases w with
        | nil => exact ⟨d, rfl, hc.1⟩
        | cons z zs =>
          obtain ⟨y, hy⟩ : ∃ y, (z :: zs).getLast? = some y :=
            ⟨(z :: zs).getLast (by simp), List.getLast?_eq_getLast _ _⟩
          exact ⟨y, by simpa using hy, h4 y hy⟩
      · intro c hc'
        rcases List.mem_cons.mp hc' with rfl | hc'
        · exact Or.inl hc.1
        · exact h5 c hc'
      · simp [digitCount, List.countP_cons, hc.1] at *; omega
      · simp [digitCount, List.countP_cons, hc.1] at *; omega
    · cases h

theorem CandShape.length_pos {w : Str} (h : CandShape w) : 0 < w.length := by
  obtain ⟨_, _, _, h13, _⟩ := h
  have : digitCount w ≤ w.length := List.countP_le_length _
  omega

theorem search_card_nil (b : List Char) : search cardPattern b [] = none := by
  simp [search, cardPattern_head, matchAt]

theorem search_card_cons (b : List Char) (x : Char) (xs : List Char) :
    search cardPattern b (x :: xs) =
      match matchAt b (x :: xs) with
      | some e => some (⟨b, x :: xs⟩, e)
      | none => search cardPattern (x :: b) xs := by
  simp only [search, cardPattern_head]

theorem search_sound :
    ∀ (a b : List Char) (st en : Cursor), search cardPattern b a = some (st, en) →
      ∃ p w, a = p ++ (w ++ en.after) ∧ st = ⟨p.reverse ++ b, w ++ en.after⟩ ∧
        en.before = w.reverse ++ (p.reverse ++ b) ∧ CandShape w := by
  intro a
  induction a with
  | nil =>
    intro b st en h
    rw [search_card_nil] at h
    cases h
  | cons x xs ih =>
    intro b st en h
    rw [search_card_cons] at h
    cases hm : matchAt b (x :: xs) with
    | some e =>
      simp only [hm, Option.some.injEq, Prod.mk.injEq] at h
      obtain ⟨h1, h2⟩ := h
      subst h2
      obtain ⟨w, hw1, hw2, hw3⟩ := matchAt_sound b (x :: xs) e hm
      exact ⟨[], w, by simpa using hw1, by simp [← h1, ← hw1], by simpa using hw2, hw3⟩
    | none =>
      simp only [hm] at h
      obtain ⟨p, w, h1, h2, h3, h4⟩ := ih (x :: b) st en h
      exact ⟨x :: p, w, by simp [h1], by simp [h2], by simp [h3], h4⟩

theorem allMatches_card_succ (n : Nat) (cur : Cursor) (prev : Option Nat) :
    allMatches cardPattern (n + 1) cur prev =
      match search cardPattern cur.before cur.after with
      | none => []
      | some (st, en) => (st.pos, en.pos) :: allMatches cardPattern n en (some en.pos) := by
  simp only [allMatches]
  cases hs : search cardPattern cur.before cur.after with
  | none => rfl
  | some r =>
    obtain ⟨st, en⟩ := r
    obtain ⟨p, w, _, _, h3, h4⟩ := search_sound _ _ _ _ hs
    have hpos := h4.length_pos
    have hne : ¬ en.pos = cur.pos := by
      simp only [Cursor.pos, h3, List.length_append, List.length_reverse]
      omega
    simp [hne]

theorem slice_mid (u w v : List Char) :
    slice (u ++ (w ++ v)) u.length (u.length + w.length) = w := by
  simp [slice]

theorem allMatches_card_props (line : Str) :
    ∀ (n : Nat) (cur : Cursor) (prev : Option Nat),
      cur.before.reverse ++ cur.after = line →
      (∀ m ∈ allMatches cardPattern n cur prev,
        cur.pos ≤ m.1 ∧ m.1 < m.2 ∧ m.2 ≤ line.length ∧ CandShape (slice line m.1 m.2)) ∧
      (allMatches cardPattern n cur prev).Pairwise (fun m1 m2 => m1.2 ≤ m2.1) := by
  intro n
  induction n with
  | zero =>
    intro cur prev _
    simp [allMatches]
  | succ n ih =>
    intro cur prev hline
    rw [allMatches_card_succ]
    cases hs : search cardPattern cur.before cur.after with
    | none => simp
    | some r =>
      obtain ⟨st, en⟩ := r
      obtain ⟨p, w, h1, h2, h3, h4⟩ := search_sound _ _ _ _ hs
      have hpos := h4.length_pos
      have hline2 : en.before.reverse ++ en.after = line := by
        rw [← hline, h3, h1]; simp
      have hdecomp : line = (cur.before.reverse ++ p) ++ (w ++ en.after) := by
        rw [← hline, h1]; simp
      have hst : st.pos = (cur.before.reverse ++ p).length := by
        simp [Cursor.pos, h2, Nat.add_comm]
      have hen : en.pos = (cur.before.reverse ++ p).length + w.length := by
        simp [Cursor.pos, h3]; omega
      obtain ⟨ih1, ih2⟩ := ih en (some en.pos) hline2
      have hhead : cur.pos ≤ st.pos ∧ st.pos < en.pos ∧ en.pos ≤ line.length ∧
          CandShape (slice line st.pos en.pos) := by
        refine ⟨?_, ?_, ?_, ?_⟩
        · simp [Cursor.pos, h2]
        · omega
        · rw [hen, hdecomp]; simp; omega
        · rw [hst, hen, hdecomp, slice_mid]; exact h4
      constructor
      · intro m hm
        rcases List.mem_cons.mp hm with rfl | hm
        · exact hhead
        · obtain ⟨a1, a2, a3, a4⟩ := ih1 m hm
          exact ⟨by omega, a2, a3, a4⟩
      · refine List.Pairwise.cons ?_ ih2
        intro m hm
        exact (ih1 m hm).1

theorem clean_of_shape {w : Str} (h : ∀ c ∈ w, isDigit c = true ∨ isSep c = true) :
    clean w = w.filter isDigit := by
  induction w with
  | nil => rfl
  | cons x xs ih =>
    have ihx := ih (fun c hc => h c (List.mem_cons_of_mem _ hc))
    simp only [clean, removeAll] at ihx ⊢
    rcases h x (List.mem_cons_self _ _) with hd | hs
    · have h1 : (x != ' ') = true := by
        cases hx : (x != ' ') with
        | true => rfl
        | false =>
          have : x = ' ' := by simpa using hx
          subst this; exact absurd hd (by decide)
      have h2 : (x != '-') = true := by
        cases hx : (x != '-') with
        | true => rfl
        | false =>
          have : x = '-' := by simpa using hx
          subst this; exact absurd hd (by decide)
      simp only [List.filter, h1, h2, hd, ihx]
    · have hd := isSep_not_digit hs
      simp only [isSep, Bool.or_eq_true, beq_iff_eq] at hs
      rcases hs with hs | hs
      · subst hs
        simpa [List.filter, hd] using ihx
      · subst hs
        simpa [List.filter, hd] using ihx

theorem findAll_card_shape (line m : Str) (h : m ∈ FindAllString cardPattern line) :
    CandShape m := by
  simp only [FindAllString, List.mem_map] at h
  obtain ⟨r, hr, rfl⟩ := h
  exact ((allMatches_card_props line _ ⟨[], line⟩ none (by simp)).1 r hr).2.2.2

/-! ## Computing the scanner and the search on particular shapes of text -/

theorem scanFrom_digits :
    ∀ (ds : List Char) (inRun : Bool) (lo hi : Nat) (b rest : List Char),
      (∀ c ∈ ds, isDigit c = true) →
      scanFrom inRun lo hi b (ds ++ rest) =
        if ds.length ≤ hi then
          scanFrom (inRun || !ds.isEmpty) (lo - ds.length) (hi - ds.length) (ds.reverse ++ b) rest
        else none := by
  intro ds
  induction ds with
  | nil => intro inRun lo hi b rest _; simp
  | cons x xs ih =>
    intro inRun lo hi b rest h
    have hx : isDigit x = true := h x (List.mem_cons_self _ _)
    have hxs : ∀ c ∈ xs, isDigit c = true := fun c hc => h c (List.mem_cons_of_mem _ hc)
    rw [List.cons_append]
    simp only [scanFrom, hx, if_true]
    by_cases h0 : hi = 0
    · simp [h0]
    · rw [if_neg h0, ih true (lo - 1) (hi - 1) (x :: b) rest hxs]
      by_cases hle : xs.length ≤ hi - 1
      · have hle2 : (x :: xs).length ≤ hi := by simp; omega
        rw [if_pos hle, if_pos hle2]
        simp [Nat.sub_sub, Nat.add_comm]
      · have hle2 : ¬ (x :: xs).length ≤ hi := by simp; omega
        rw [if_neg hle, if_neg hle2]

theorem scanFrom_seps :
    ∀ (s : List Char) (inRun : Bool) (lo hi : Nat) (b rest : List Char),
      (∀ c ∈ s, isSep c = true) → 1 ≤ lo →
      scanFrom inRun lo hi b (s ++ rest) =
        scanFrom (inRun && s.isEmpty) lo hi (s.reverse ++ b) rest := by
  intro s
  induction s with
  | nil => intro inRun lo hi b rest _ _; simp
  | cons x xs ih =>
    intro inRun lo hi b rest h hlo
    have hx : isSep x = true := h x (List.mem_cons_self _ _)
    have hxs : ∀ c ∈ xs, isSep c = true := fun c hc => h c (List.mem_cons_of_mem _ hc)
    have h0 : ¬ (inRun = true ∧ lo = 0) := by omega
    rw [List.cons_append]
    simp only [scanFrom, isSep_not_digit hx, hx, if_true, if_neg h0,
      Bool.false_eq_true, if_false]
    rw [ih false lo hi (x :: b) rest hxs hlo]
    simp

theorem scanFrom_stop (hi : Nat) (b rest : List Char)
    (h1 : ∀ x, rest.head? = some x → isDigit x = false)
    (h2 : ∀ x, rest.head? = some x → isWordChar x = false) :
    scanFrom true 0 hi b rest = some ⟨b, rest⟩ := by
  cases rest with
  | nil => simp [scanFrom]
  | cons x xs =>
    have hd := h1 x rfl
    have hw := h2 x rfl
    by_cases hs : isSep x = true
    · simp [scanFrom, hd, hs]
    · simp [scanFrom, hd, hs, hw]

theorem scanFrom_nodigit :
    ∀ (rest : List Char) (inRun : Bool) (lo hi : Nat) (b : List Char),
      (∀ c ∈ rest, isDigit c = false) → 1 ≤ lo → scanFrom inRun lo hi b rest = none := by
  intro rest
  induction rest with
  | nil =>
    intro inRun lo hi b _ hlo
    have h0 : ¬ (inRun = true ∧ lo = 0) := by omega
    simp [scanFrom, h0]
  | cons x xs ih =>
    intro inRun lo hi b h hlo
    have hx : isDigit x = false := h x (List.mem_cons_self _ _)
    have hxs : ∀ c ∈ xs, isDigit c = false := fun c hc => h c (List.mem_cons_of_mem _ hc)
    have h0 : ¬ (inRun = true ∧ lo = 0) := by omega
    have h1 : ¬ (inRun = true ∧ lo = 0 ∧ isWordChar x = false) := by omega
    simp only [scanFrom, hx, Bool.false_eq_true, if_false, if_neg h0, if_neg h1]
    rw [ih false lo hi (x :: b) hxs hlo]
    simp

theorem matchAt_nodigit (b : List Char) (x : Char) (xs : List Char) (h : isDigit x = false) :
    matchAt b (x :: xs) = none := by
  simp [matchAt, h]

theorem matchAt_inside (w : Char) (b : List Char) (x : Char) (xs : List Char)
    (hw : isWordChar w = true) (hx : isDigit x = true) :
    matchAt (w :: b) (x :: xs) = none := by
  simp [matchAt, atWordBoundary, hw, isDigit_word hx]

theorem search_skip_nodigit :
    ∀ (pre b a : List Char), (∀ c ∈ pre, isDigit c = false) →
      search cardPattern b (pre ++ a) = search cardPattern (pre.reverse ++ b) a := by
  intro pre
  induction pre with
  | nil => intro b a _; simp
  | cons x xs ih =>
    intro b a h
    have hx : isDigit x = false := h x (List.mem_cons_self _ _)
    have hxs : ∀ c ∈ xs, isDigit c = false := fun c hc => h c (List.mem_cons_of_mem _ hc)
    rw [List.cons_append, search_card_cons, matchAt_nodigit b x _ hx]
    simp only
    rw [ih (x :: b) a hxs]
    simp

theorem search_nodigit (a b : List Char) (h : ∀ c ∈ a, isDigit c = false) :
    search cardPattern b a = none := by
  have := search_skip_nodigit a b [] h
  simp only [List.append_nil] at this
  rw [this, search_card_nil]

theorem search_skip_inside :
    ∀ (ds : List Char) (w : Char) (b a : List Char), isWordChar w = true →
      (∀ c ∈ ds, isDigit c = true) →
      search cardPattern (w :: b) (ds ++ a) = search cardPattern (ds.reverse ++ w :: b) a := by
  intro ds
  induction ds with
  | nil => intro w b a _ _; simp
  | cons x xs ih =>
    intro w b a hw h
    have hx : isDigit x = true := h x (List.mem_cons_self _ _)
    have hxs : ∀ c ∈ xs, isDigit c = true := fun c hc => h c (List.mem_cons_of_mem _ hc)
    rw [List.cons_append, search_card_cons, matchAt_inside w b x _ hw hx]
    simp only
    rw [ih x (w :: b) a (isDigit_word hx) hxs]
    simp

theorem allMatches_card_none (n : Nat) (cur : Cursor) (prev : Option Nat)
    (h : search cardPattern cur.before cur.after = none) :
    allMatches cardPattern n cur prev = [] := by
  cases n with
  | zero => simp [allMatches]
  | succ n => rw [allMatches_card_succ, h]

theorem findAll_none (line : Str) (h : search cardPattern [] line = none) :
    FindAllString cardPattern line = [] := by
  simp [FindAllString, FindAllStringIndex, allMatches_card_none _ ⟨[], line⟩ none h]

theorem findAll_one (u w v : Str)
    (h1 : search cardPattern [] (u ++ (w ++ v)) = some (⟨u.reverse, w ++ v⟩, ⟨w.reverse ++ u.reverse, v⟩))
    (h2 : search cardPattern (w.reverse ++ u.reverse) v = none) :
    FindAllString cardPattern (u ++ (w ++ v)) = [w] := by
  have h3 := allMatches_card_none (u ++ (w ++ v)).length ⟨w.reverse ++ u.reverse, v⟩
    (some (Cursor.pos ⟨w.reverse ++ u.reverse, v⟩)) h2
  simp only [FindAllString, FindAllStringIndex, allMatches_card_succ, h1, h3, List.map_cons,
    List.map_nil]
  have := slice_mid u w v
  simp only [Cursor.pos, List.length_reverse, List.length_append]
  rw [Nat.add_comm w.length u.length, this]

theorem search_found (b : List Char) (x : Char) (xs : List Char) (e : Cursor)
    (h : matchAt b (x :: xs) = some e) :
    search cardPattern b (x :: xs) = some (⟨b, x :: xs⟩, e) := by
  rw [search_card_cons, h]

/-! ## The claims about the extractor -/

/-- C7: whatever the line, removing the spaces and hyphens from a candidate returned by
the extractor leaves a string of 13 to 19 characters, all of them digits; the candidate
itself holds no character other than digits, spaces and hyphens, so the normalised
string handed to `isValidLuhn` is a non-empty digit string. -/
theorem candidate_normalizes_to_digits (line m : Str)
    (h : m ∈ FindAllString cardPattern line) :
    (∀ c ∈ m, isDigit c = true ∨ c = ' ' ∨ c = '-') ∧
      (∀ c ∈ clean m, isDigit c = true) ∧
      13 ≤ (clean m).length ∧ (clean m).length ≤ 19 ∧ clean m ≠ [] := by
  obtain ⟨_, _, h3, h4, h5⟩ := findAll_card_shape line m h
  have hc := clean_of_shape h3
  have hlen : (clean m).length = digitCount m := by
    rw [hc, digitCount, List.countP_eq_length_filter]
  refine ⟨?_, ?_, by omega, by omega, ?_⟩
  · intro c hc'
    rcases h3 c hc' with hd | hs
    · exact Or.inl hd
    · simp only [isSep, Bool.or_eq_true, beq_iff_eq] at hs
      exact Or.inr hs
  · intro c hc'
    rw [hc] at hc'
    exact (List.mem_filter.mp hc').2
  · intro hnil
    rw [hnil] at hlen
    simp at hlen
    omega

/-- C7, at the candidate found in the line `card: 4111 1111 1111 1111`. -/
theorem candidate_normalizes_to_digits_witness :
    visaSpaced ∈ FindAllString cardPattern cardLine ∧
      ((∀ c ∈ visaSpaced, isDigit c = true ∨ c = ' ' ∨ c = '-') ∧
        (∀ c ∈ clean visaSpaced, isDigit c = true) ∧
        13 ≤ (clean visaSpaced).length ∧ (clean visaSpaced).length ≤ 19 ∧
        clean visaSpaced ≠ []) :=
  ⟨by decide, candidate_normalizes_to_digits cardLine visaSpaced (by decide)⟩

/-- C9 fails as stated: the line `4111  1111 1111 1111`, with two spaces after the
first group, is returned as a candidate, and it holds two adjacent separators. -/
theorem candidate_with_adjacent_separators :
    visaDoubleSpaced ∈ FindAllString cardPattern visaDoubleSpaced ∧
      hasAdjacentSeps visaDoubleSpaced = true := by
  decide

/-- C9, amended: every candidate begins with a digit, ends with a digit and holds only
digits, spaces and hyphens; the number of separators between two digits is not bounded:
any digit, followed by any run of spaces and hyphens and by any twelve further digits,
forms a line that is returned whole. -/
theorem candidate_separator_runs (line m : Str)
    (h : m ∈ FindAllString cardPattern line) :
    ((∃ d, m.head? = some d ∧ isDigit d = true) ∧
      (∃ d, m.getLast? = some d ∧ isDigit d = true) ∧
      (∀ c ∈ m, isDigit c = true ∨ isSep c = true)) ∧
    (∀ (d : Char) (seps ds : Str), isDigit d = true → (∀ c ∈ seps, isSep c = true) →
      (∀ c ∈ ds, isDigit c = true) → ds.length = 12 →
      FindAllString cardPattern (d :: (seps ++ ds)) = [d :: (seps ++ ds)]) := by
  obtain ⟨h1, h2, h3, _, _⟩ := findAll_card_shape line m h
  refine ⟨⟨h1, h2, h3⟩, ?_⟩
  intro d seps ds hd hseps hds hlen
  have hm : matchAt [] (d :: (seps ++ ds)) =
      some ⟨(d :: (seps ++ ds)).reverse, []⟩ := by
    have hb : atWordBoundary ⟨[], d :: (seps ++ ds)⟩ = true := by
      simp [atWordBoundary, isDigit_word hd]
    simp only [matchAt, hd, hb, and_self, if_true]
    rw [scanFrom_seps seps true 12 18 [d] ds hseps (by omega)]
    have := scanFrom_digits ds (true && seps.isEmpty) 12 18 (seps.reverse ++ [d]) [] hds
    rw [List.append_nil] at this
    rw [this]
    simp only [hlen, Nat.sub_self, show (12 : Nat) ≤ 18 by omega, if_true]
    have hne : (!ds.isEmpty) = true := by
      cases ds with
      | nil => simp at hlen
      | cons y ys => rfl
    rw [hne, Bool.or_true, scanFrom_stop _ _ [] (by simp) (by simp)]
    simp
  have hs := search_found [] d (seps ++ ds) _ hm
  have := findAll_one [] (d :: (seps ++ ds)) []
    (by simpa using hs) (by rw [search_card_nil])
  simpa using this

/-- C9 amended, at the candidate found in the line `card: 4111 1111 1111 1111`, and at
the digit `4` followed by two spaces and twelve digits. -/
theorem candidate_separator_runs_witness :
    visaSpaced ∈ FindAllString cardPattern cardLine ∧
      ((∃ d, visaSpaced.head? = some d ∧ isDigit d = true) ∧
        (∃ d, visaSpaced.getLast? = some d ∧ isDigit d = true) ∧
        (∀ c ∈ visaSpaced, isDigit c = true ∨ isSep c = true)) ∧
      FindAllString cardPattern ('4' :: (twoSpaces ++ twelveOnes)) =
        ['4' :: (twoSpaces ++ twelveOnes)] :=
  ⟨by decide, (candidate_separator_runs cardLine visaSpaced (by decide)).1,
    (candidate_separator_runs cardLine visaSpaced (by decide)).2 '4' twoSpaces twelveOnes
      (by decide) (by decide) (by decide) (by decide)⟩

theorem search_run_fail (pre run suf : Str)
    (hpre : ∀ c ∈ pre, isDigit c = false) (hrun : ∀ c ∈ run, isDigit c = true)
    (hsuf : ∀ c ∈ suf, isDigit c = false)
    (hlen : run.length ≤ 12 ∨ 20 ≤ run.length) :
    search cardPattern [] (pre ++ (run ++ suf)) = none := by
  rw [search_skip_nodigit pre [] _ hpre]
  cases run with
  | nil =>
    simp only [List.nil_append]
    exact search_nodigit suf _ hsuf
  | cons d ds =>
    have hd : isDigit d = true := hrun d (List.mem_cons_self _ _)
    have hds : ∀ c ∈ ds, isDigit c = true := fun c hc => hrun c (List.mem_cons_of_mem _ hc)
    have hm : matchAt (pre.reverse ++ []) (d :: (ds ++ suf)) = none := by
      simp only [matchAt]
      split
      · rw [scanFrom_digits ds true 12 18 _ suf hds]
        by_cases hle : ds.length ≤ 18
        · rw [if_pos hle]
          have h12 : ds.length ≤ 11 := by
            simp only [List.length_cons] at hlen
            omega
          exact scanFrom_nodigit suf _ _ _ _ hsuf (by omega)
        · rw [if_neg hle]
      · rfl
    rw [List.cons_append, search_card_cons, hm]
    simp only
    rw [search_skip_inside ds d _ suf (isDigit_word hd) hds]
    exact search_nodigit suf _ hsuf

/-- C4: in a line made of a digit-free prefix (empty or ending in a non-word character),
a run of `n` digits and a digit-free suffix (empty or beginning with a non-word
character), the extractor finds nothing when `n ≤ 12`, nothing when `n ≥ 20`, and
exactly the run when `13 ≤ n ≤ 19`. -/
theorem extractor_digit_run (pre run suf : Str)
    (hpre : ∀ c ∈ pre, isDigit c = false)
    (hpreEnd : ∀ x, pre.getLast? = some x → isWordChar x = false)
    (hrun : ∀ c ∈ run, isDigit c = true)
    (hsuf : ∀ c ∈ suf, isDigit c = false)
    (hsufStart : ∀ x, suf.head? = some x → isWordChar x = false) :
    (run.length ≤ 12 → FindAllString cardPattern (pre ++ run ++ suf) = []) ∧
    (20 ≤ run.length → FindAllString cardPattern (pre ++ run ++ suf) = []) ∧
    (13 ≤ run.length → run.length ≤ 19 →
      FindAllString cardPattern (pre ++ run ++ suf) = [run]) := by
  refine ⟨?_, ?_, ?_⟩
  · intro h
    rw [List.append_assoc]
    exact findAll_none _ (search_run_fail pre run suf hpre hrun hsuf (Or.inl h))
  · intro h
    rw [List.append_assoc]
    exact findAll_none _ (search_run_fail pre run suf hpre hrun hsuf (Or.inr h))
  · intro h13 h19
    rw [List.append_assoc]
    cases run with
    | nil => simp at h13
    | cons d ds =>
      have hd : isDigit d = true := hrun d (List.mem_cons_self _ _)
      have hds : ∀ c ∈ ds, isDigit c = true := fun c hc => hrun c (List.mem_cons_of_mem _ hc)
      simp only [List.length_cons] at h13 h19
      have hb : atWordBoundary ⟨pre.reverse, d :: (ds ++ suf)⟩ = true := by
        cases hr : pre.reverse with
        | nil => simp [atWordBoundary, isDigit_word hd]
        | cons y ys =>
          have hy : pre.getLast? = some y := by
            rw [List.getLast?_eq_head?_reverse, hr]; rfl
          simp [atWordBoundary, isDigit_word hd, hpreEnd y hy]
      have hm : matchAt pre.reverse (d :: (ds ++ suf)) =
          some ⟨(d :: ds).reverse ++ pre.reverse, suf⟩ := by
        simp only [matchAt, hd, hb, and_self, if_true]
        rw [scanFrom_digits ds true 12 18 _ suf hds, if_pos (by omega)]
        have h0 : 12 - ds.length = 0 := by omega
        rw [h0, Bool.true_or,
          scanFrom_stop _ _ suf (fun x hx => hsuf x (List.mem_of_mem_head? hx)) hsufStart]
        simp
      apply findAll_one pre (d :: ds) suf
      · rw [search_skip_nodigit pre [] _ hpre, List.append_nil, List.cons_append]
        exact search_found _ d _ _ hm
      · exact search_nodigit suf _ hsuf

/-- C4, at a nineteen-digit run between `id: ` and ` ok`. -/
theorem extractor_digit_run_witness :
    FindAllString cardPattern (padLeft ++ nineteenDigits ++ padRight) = [nineteenDigits] :=
  (extractor_digit_run padLeft nineteenDigits padRight (by decide) (by decide) (by decide)
    (by decide) (by decide)).2.2 (by decide) (by decide)

theorem sepDigits_cons (d : Char) (rest : Str) :
    sepDigits (d :: rest) = (isDigit d && contShape rest) := by
  cases rest with
  | nil => simp [sepDigits, contShape]
  | cons x xs => simp [sepDigits, contShape]

theorem digitCount_cons (x : Char) (xs : Str) :
    digitCount (x :: xs) = digitCount xs + (if isDigit x then 1 else 0) := by
  simp [digitCount, List.countP_cons]

theorem digitCount_append (u v : Str) : digitCount (u ++ v) = digitCount u + digitCount v := by
  simp [digitCount, List.countP_append]

theorem scanFrom_shape :
    ∀ (rest : List Char) (inRun : Bool) (lo hi : Nat) (b : List Char),
      (inRun = true → contShape rest = true) →
      (inRun = false → sepDigits rest = true ∧ 1 ≤ lo) →
      lo ≤ digitCount rest → digitCount rest ≤ hi →
      scanFrom inRun lo hi b rest =
        some ⟨(takeCard lo rest).reverse ++ b, rest.drop (takeCard lo rest).length⟩ := by
  intro rest
  induction rest with
  | nil =>
    intro inRun lo hi b h1 h2 hlo _
    cases inRun with
    | false => have := (h2 rfl).1; simp [sepDigits] at this
    | true =>
      have : lo = 0 := by simpa [digitCount] using hlo
      simp [scanFrom, takeCard, this]
  | cons x xs ih =>
    intro inRun lo hi b h1 h2 hlo hhi
    rw [digitCount_cons] at hlo hhi
    by_cases hx : isDigit x = true
    · have hns : isSep x = false := by
        cases h : isSep x with
        | false => rfl
        | true => rw [isSep_not_digit h] at hx; cases hx
      have hshape : contShape xs = true := by
        have hsd : sepDigits (x :: xs) = true := by
          cases inRun with
          | true => simpa [contShape, hns] using h1 rfl
          | false => exact (h2 rfl).1
        rw [sepDigits_cons] at hsd
        simp only [Bool.and_eq_true] at hsd
        exact hsd.2
      simp only [hx, if_true] at hlo hhi
      have h0 : ¬ hi = 0 := by omega
      simp only [scanFrom, hx, if_true, if_neg h0, takeCard]
      rw [ih true (lo - 1) (hi - 1) (x :: b) (fun _ => hshape) (fun h => by cases h)
        (by omega) (by omega)]
      simp
    · have hxf : isDigit x = false := by simpa using hx
      simp only [hxf, Bool.false_eq_true, if_false, Nat.add_zero] at hlo hhi
      cases inRun with
      | false =>
        have := (h2 rfl).1
        rw [sepDigits_cons, hxf] at this
        simp at this
      | true =>
        have hc := h1 rfl
        by_cases hs : isSep x = true
        · simp only [contShape, hs, if_true] at hc
          by_cases h0 : lo = 0
          · simp [scanFrom, hxf, hs, h0, takeCard]
          · have hn : ¬ (true = true ∧ lo = 0) := by simp [h0]
            simp only [scanFrom, hxf, Bool.false_eq_true, if_false, hs, if_true, if_neg hn,
              takeCard, if_neg h0]
            rw [ih false lo hi (x :: b) (fun h => by cases h) (fun _ => ⟨hc, by omega⟩)
              hlo hhi]
            simp [h0]
        · have hsf : isSep x = false := by simpa using hs
          simp only [contShape, hsf, Bool.false_eq_true, if_false] at hc
          rw [sepDigits_cons, hxf] at hc
          simp at hc

theorem takeCard_split : ∀ (l : Str) (n : Nat),
    takeCard n l ++ l.drop (takeCard n l).length = l := by
  intro l
  induction l with
  | nil => intro n; simp [takeCard]
  | cons x xs ih =>
    intro n
    by_cases hx : isDigit x = true
    · simp [takeCard, hx, ih]
    · by_cases h0 : n = 0
      · simp [takeCard, hx, h0]
      · simp [takeCard, hx, h0, ih]

theorem takeCard_digits : ∀ (v : Str) (n : Nat), (∀ c ∈ v, isDigit c = true) →
    takeCard n v = v := by
  intro v
  induction v with
  | nil => intro n _; simp [takeCard]
  | cons x xs ih =>
    intro n h
    have hx : isDigit x = true := h x (List.mem_cons_self _ _)
    simp [takeCard, hx, ih (n - 1) (fun c hc => h c (List.mem_cons_of_mem _ hc))]

theorem takeCard_whole : ∀ (u : Str) (n : Nat) (v : Str), digitCount u < n →
    (∀ c ∈ v, isDigit c = true) → takeCard n (u ++ v) = u ++ v := by
  intro u
  induction u with
  | nil => intro n v _ hv; simpa using takeCard_digits v n hv
  | cons x xs ih =>
    intro n v hn hv
    rw [digitCount_cons] at hn
    rw [List.cons_append]
    by_cases hx : isDigit x = true
    · simp only [hx, if_true] at hn
      simp [takeCard, hx, ih (n - 1) v (by omega) hv]
    · have hxf : isDigit x = false := by simpa using hx
      simp only [hxf, Bool.false_eq_true, if_false, Nat.add_zero] at hn
      have h0 : ¬ n = 0 := by omega
      simp [takeCard, hxf, h0, ih n v hn hv]

theorem search_needs_digits (a b : List Char) (h : digitCount a < 13) :
    search cardPattern b a = none := by
  cases hs : search cardPattern b a with
  | none => rfl
  | some r =>
    obtain ⟨st, en⟩ := r
    obtain ⟨p, w, h1, _, _, h4⟩ := search_sound a b st en hs
    obtain ⟨_, _, _, h13, _⟩ := h4
    rw [h1, digitCount_append, digitCount_append] at h
    omega

theorem findAll_sepDigits (line : Str) (hshape : sepDigits line = true)
    (h13 : 13 ≤ digitCount line) (h19 : digitCount line ≤ 19) :
    FindAllString cardPattern line = [takeCard 13 line] := by
  cases line with
  | nil => simp [sepDigits] at hshape
  | cons d rest =>
    rw [sepDigits_cons] at hshape
    simp only [Bool.and_eq_true] at hshape
    obtain ⟨hd, hc⟩ := hshape
    rw [digitCount_cons] at h13 h19
    simp only [hd, if_true] at h13 h19
    have hb : atWordBoundary ⟨[], d :: rest⟩ = true := by
      simp [atWordBoundary, isDigit_word hd]
    have hm : matchAt [] (d :: rest) =
        some ⟨(takeCard 13 (d :: rest)).reverse ++ [],
          rest.drop (takeCard 12 rest).length⟩ := by
      simp only [matchAt, hd, hb, and_self, if_true]
      rw [scanFrom_shape rest true 12 18 [d] (fun _ => hc) (fun h => by cases h)
        (by omega) (by omega)]
      simp [takeCard, hd]
    have hsplit := takeCard_split (d :: rest) 13
    have hdrop : (d :: rest).drop (takeCard 13 (d :: rest)).length =
        rest.drop (takeCard 12 rest).length := by
      simp [takeCard, hd]
    rw [hdrop] at hsplit
    obtain ⟨w, hw1, hw2, hw3⟩ := matchAt_sound [] (d :: rest) _ hm
    have hweq : w = takeCard 13 (d :: rest) := by
      have := congrArg List.reverse hw2
      simpa using this.symm
    subst hweq
    obtain ⟨_, _, _, hw13, _⟩ := hw3
    have hcount : digitCount (d :: rest) =
        digitCount (takeCard 13 (d :: rest)) +
          digitCount (rest.drop (takeCard 12 rest).length) := by
      rw [← digitCount_append, hsplit]
    rw [digitCount_cons] at hcount
    simp only [hd, if_true] at hcount
    have hfind := findAll_one [] (takeCard 13 (d :: rest))
      (rest.drop (takeCard 12 rest).length)
      (by
        simp only [List.nil_append, List.reverse_nil, List.append_nil]
        rw [hsplit]
        simpa using search_found [] d rest _ hm)
      (search_needs_digits _ _ (by omega))
    simp only [List.nil_append] at hfind
    rw [hsplit] at hfind
    exact hfind

/-- C5 fails as stated: `1234567890123 4` is a run of fourteen digits with a single
space between the thirteenth and the fourteenth, yet the extractor returns the first
thirteen digits, not the whole line. -/
theorem late_separator_cuts_candidate :
    sepDigits lateSeparator = true ∧ digitCount lateSeparator = 14 ∧
      FindAllString cardPattern lateSeparator = [thirteenDigits] ∧
      thirteenDigits ≠ lateSeparator := by
  decide

/-- C5, amended: for a line that is, in its entirety, a run of 13 to 19 digits with at
most one space or hyphen between consecutive digits, the extractor returns exactly one
candidate, the prefix of the line that ends at the first digit, from the thirteenth on,
that is not directly followed by a digit; when every character from the thirteenth
digit on is a digit, that candidate is the whole line. -/
theorem extractor_separated_line (line : Str) (hshape : sepDigits line = true)
    (h13 : 13 ≤ digitCount line) (h19 : digitCount line ≤ 19) :
    FindAllString cardPattern line = [takeCard 13 line] ∧
      (∀ u v : Str, line = u ++ v → digitCount u ≤ 12 → (∀ c ∈ v, isDigit c = true) →
        FindAllString cardPattern line = [line]) := by
  have h := findAll_sepDigits line hshape h13 h19
  refine ⟨h, ?_⟩
  intro u v huv hu hv
  rw [h]
  subst huv
  rw [takeCard_whole u 13 v (by omega) hv]

/-- C5 amended, at `4111 1111-1111 1111`, whose separators all come before the
thirteenth digit. -/
theorem extractor_separated_line_witness :
    FindAllString cardPattern visaMixed = [visaMixed] :=
  (extractor_separated_line visaMixed (by decide) (by decide) (by decide)).2
    "4111 1111-1111 ".toList "1111".toList (by decide) (by decide) (by decide)

/-! ## The loops of `scanText` -/

theorem scanMatches_eq (sha256 : Str → Digest) (path : Str) (lineNo : Nat) :
    ∀ (ms : List Str) (out : List Finding),
      scanMatches sha256 path lineNo ms out = out ++ ms.map (report sha256 path lineNo) := by
  intro ms
  induction ms with
  | nil => intro out; simp [scanMatches]
  | cons m ms ih =>
    intro out
    by_cases hv : isValidLuhn (clean m) = true
    · simp [scanMatches, report, hv, ih]
    · simp [scanMatches, report, hv, ih]

theorem scanLines_eq (sha256 : Str → Digest) (path : Str) :
    ∀ (lines : List Str) (i : Nat) (out : List Finding),
      scanLines sha256 path i lines out =
        out ++ (lines.enumFrom i).flatMap
          (fun p => (FindAllString cardPattern p.2).map (report sha256 path (p.1 + 1))) := by
  intro lines
  induction lines with
  | nil => intro i out; simp [scanLines]
  | cons l ls ih =>
    intro i out
    simp [scanLines, ih, scanMatches_eq]

theorem scanText_eq (sha256 : Str → Digest) (path : Str) (text : Str) :
    scanText sha256 path text =
      (split '\n' text).enum.flatMap
        (fun p => (FindAllString cardPattern p.2).map (report sha256 path (p.1 + 1))) := by
  simp [scanText, scanLines_eq, List.enum]

theorem mem_scanText (sha256 : Str → Digest) (path text : Str) (f : Finding)
    (h : f ∈ scanText sha256 path text) :
    ∃ (n : Nat) (line m : Str), m ∈ FindAllString cardPattern line ∧
      f = report sha256 path n m := by
  rw [scanText_eq] at h
  simp only [List.mem_flatMap, List.mem_map] at h
  obtain ⟨p, _, m, hm, rfl⟩ := h
  exact ⟨p.1 + 1, p.2, m, hm, rfl⟩

theorem report_card (sha256 : Str → Digest) (path : Str) (n : Nat) (m : Str) :
    (report sha256 path n m).card = m ∧ (report sha256 path n m).line = n ∧
      (report sha256 path n m).path = path := by
  by_cases hv : isValidLuhn (clean m) = true <;> simp [report, hv, Finding.card, Finding.line,
    Finding.path]

/-! ## The claims about `scanText` -/

/-- C3: `scanText` prints exactly one finding per candidate of each line, in order: a
HIGH finding with the source identifier, the line number, the raw match, `detectType`
of the normalised digits and the digest of the normalised digits when `isValidLuhn`
holds for the normalised digits, and otherwise a LOW finding with the source
identifier, the line number and the raw match only.  On the scenario text the output
is one HIGH finding (line 2, Visa) followed by one LOW finding (line 3). -/
theorem scanText_findings (sha256 : Str → Digest) (path : Str) :
    (∀ text : Str,
      scanText sha256 path text =
        (split '\n' text).enum.flatMap (fun p =>
          (FindAllString cardPattern p.2).map (fun m =>
            if isValidLuhn (clean m) then
              Finding.high path (p.1 + 1) m (detectType (clean m)) (sha256 (clean m))
            else Finding.low path (p.1 + 1) m))) ∧
    scanText sha256 path scenario =
      [Finding.high path 2 visaSpaced "Visa" (sha256 visaPlain),
        Finding.low path 3 thirteenDigits] := by
  constructor
  · intro text
    rw [scanText_eq]
    rfl
  · have hsplit : split '\n' scenario = [scenarioLine1, cardLine, scenarioLine3] := by decide
    have h1 : FindAllString cardPattern scenarioLine1 = [] := by decide
    have h2 : FindAllString cardPattern cardLine = [visaSpaced] := by decide
    have h3 : FindAllString cardPattern scenarioLine3 = [thirteenDigits] := by decide
    have h4 : clean visaSpaced = visaPlain := by decide
    have h5 : isValidLuhn visaPlain = true := by decide
    have h6 : detectType visaPlain = "Visa" := by decide
    have h7 : isValidLuhn (clean thirteenDigits) = false := by decide
    rw [scanText_eq, hsplit]
    simp [List.enum, h1, h2, h3, report, h4, h5, h6, h7]

/-- C6: two findings printed by `scanText` (for any sources and texts) whose raw matches
normalise to the same digit string have the same severity, the same card type and the
same digest; the digest of a HIGH finding is the digest of the normalised digits. -/
theorem same_digits_same_report (sha256 : Str → Digest) (p1 p2 t1 t2 : Str) (f1 f2 : Finding)
    (h1 : f1 ∈ scanText sha256 p1 t1) (h2 : f2 ∈ scanText sha256 p2 t2)
    (h : clean f1.card = clean f2.card) :
    f1.isHigh = f2.isHigh ∧ f1.cardType = f2.cardType ∧ f1.hash = f2.hash ∧
      (f1.isHigh = true → f1.hash = some (sha256 (clean f1.card))) := by
  obtain ⟨n1, l1, m1, _, rfl⟩ := mem_scanText sha256 p1 t1 f1 h1
  obtain ⟨n2, l2, m2, _, rfl⟩ := mem_scanText sha256 p2 t2 f2 h2
  rw [(report_card sha256 p1 n1 m1).1, (report_card sha256 p2 n2 m2).1] at h
  rw [(report_card sha256 p1 n1 m1).1]
  by_cases hv : isValidLuhn (clean m2) = true
  · have hv1 : isValidLuhn (clean m1) = true := by rw [h]; exact hv
    simp [report, hv, hv1, Finding.isHigh, Finding.cardType, Finding.hash, h]
  · have hv1 : ¬ isValidLuhn (clean m1) = true := by rw [h]; exact hv
    simp [report, hv, hv1, Finding.isHigh, Finding.cardType, Finding.hash]

/-- C6, at `4111 1111 1111 1111` and `4111-1111-1111-1111`, which both normalise to
`4111111111111111`. -/
theorem same_digits_same_report_witness :
    (clean visaSpaced = visaPlain ∧ clean visaHyphen = visaPlain) ∧
      (Finding.high samplePath 1 visaSpaced "Visa" (codesDigest visaPlain)).hash =
        (Finding.high samplePath 1 visaHyphen "Visa" (codesDigest visaPlain)).hash :=
  ⟨by decide,
    (same_digits_same_report codesDigest samplePath samplePath visaSpaced visaHyphen
      (Finding.high samplePath 1 visaSpaced "Visa" (codesDigest visaPlain))
      (Finding.high samplePath 1 visaHyphen "Visa" (codesDigest visaPlain))
      (by decide) (by decide) (by decide)).2.2.1⟩

theorem split_ne_nil (sep : Char) : ∀ text : Str, split sep text ≠ [] := by
  intro text
  cases text with
  | nil => simp [split]
  | cons c cs =>
    by_cases hc : c = sep
    · simp [split, hc]
    · cases hs : split sep cs <;> simp [split, hc, hs]

theorem split_no_sep (sep : Char) : ∀ (text : Str), ∀ line ∈ split sep text, sep ∉ line := by
  intro text
  induction text with
  | nil => intro line h; simp [split] at h; simp [h]
  | cons c cs ih =>
    intro line h
    by_cases hc : c = sep
    · simp only [split, hc, if_true, List.mem_cons] at h
      rcases h with rfl | h
      · simp
      · exact ih line h
    · cases hs : split sep cs with
      | nil => exact absurd hs (split_ne_nil sep cs)
      | cons l ls =>
        simp only [split, hc, if_false, hs, List.mem_cons] at h
        rcases h with rfl | h
        · intro hmem
          rcases List.mem_cons.mp hmem with heq | hmem
          · exact hc heq.symm
          · exact ih l (by simp [hs]) hmem
        · exact ih line (by simp [hs, h])

theorem intercalate_split (sep : Char) : ∀ text : Str,
    List.intercalate [sep] (split sep text) = text := by
  intro text
  induction text with
  | nil => simp [split, List.intercalate]
  | cons c cs ih =>
    cases hs : split sep cs with
    | nil => exact absurd hs (split_ne_nil sep cs)
    | cons l ls =>
      rw [hs] at ih
      by_cases hc : c = sep
      · simp only [split, hc, if_true, hs]
        simp only [List.intercalate, List.intersperse_cons₂, List.flatten_cons,
          List.nil_append, List.singleton_append] at ih ⊢
        rw [ih]
      · simp only [split, hc, if_false, hs]
        cases ls with
        | nil =>
          simp only [List.intercalate, List.intersperse_single, List.flatten_cons,
            List.flatten_nil, List.append_nil] at ih ⊢
          rw [ih]
        | cons l2 ls2 =>
          simp only [List.intercalate, List.intersperse_cons₂, List.flatten_cons,
            List.cons_append] at ih ⊢
          rw [ih]

theorem findAllIndex_props (line : Str) :
    (∀ m ∈ FindAllStringIndex cardPattern line, m.1 < m.2 ∧ m.2 ≤ line.length) ∧
      (FindAllStringIndex cardPattern line).Pairwise (fun m1 m2 => m1.2 ≤ m2.1) := by
  have h := allMatches_card_props line (line.length + 1) ⟨[], line⟩ none (by simp)
  exact ⟨fun m hm => ⟨(h.1 m hm).2.1, (h.1 m hm).2.2.1⟩, h.2⟩

theorem locs_props :
    ∀ (lines : List Str) (i : Nat),
      (∀ l ∈ (lines.enumFrom i).flatMap
          (fun p => (FindAllStringIndex cardPattern p.2).map (fun m => (p.1 + 1, m.1, m.2))),
        i + 1 ≤ l.1 ∧ l.1 ≤ i + lines.length ∧ l.2.1 < l.2.2 ∧
          l.2.2 ≤ (lines.getD (l.1 - 1 - i) []).length) ∧
      ((lines.enumFrom i).flatMap
          (fun p => (FindAllStringIndex cardPattern p.2).map (fun m => (p.1 + 1, m.1, m.2)))).Pairwise
        (fun a b => a.1 < b.1 ∨ (a.1 = b.1 ∧ a.2.2 ≤ b.2.1)) := by
  intro lines
  induction lines with
  | nil => intro i; simp
  | cons x xs ih =>
    intro i
    obtain ⟨ih1, ih2⟩ := ih (i + 1)
    obtain ⟨hx1, hx2⟩ := findAllIndex_props x
    simp only [List.enumFrom_cons, List.flatMap_cons]
    constructor
    · intro l hl
      rcases List.mem_append.mp hl with hl | hl
      · obtain ⟨m, hm, rfl⟩ := List.mem_map.mp hl
        have := hx1 m hm
        simp only [List.length_cons]
        refine ⟨by omega, by omega, this.1, ?_⟩
        have h0 : i + 1 - 1 - i = 0 := by omega
        simp only [h0, List.getD_cons_zero]
        exact this.2
      · obtain ⟨a1, a2, a3, a4⟩ := ih1 l hl
        simp only [List.length_cons]
        refine ⟨by omega, by omega, a3, ?_⟩
        have h0 : l.1 - 1 - i = (l.1 - 1 - (i + 1)) + 1 := by omega
        rw [h0, List.getD_cons_succ]
        exact a4
    · rw [List.pairwise_append]
      refine ⟨?_, ih2, ?_⟩
      · rw [List.pairwise_map]
        exact hx2.imp (fun h => Or.inr ⟨rfl, h⟩)
      · intro a ha b hb
        obtain ⟨m, _, rfl⟩ := List.mem_map.mp ha
        have := (ih1 b hb).1
        exact Or.inl (by simp only; omega)

theorem findings_aligned (sha256 : Str → Digest) (path : Str) :
    ∀ (lines : List Str) (i : Nat),
      ((lines.enumFrom i).flatMap
          (fun p => (FindAllString cardPattern p.2).map (report sha256 path (p.1 + 1)))).map
        (fun f => (f.line, f.card)) =
      ((lines.enumFrom i).flatMap
          (fun p => (FindAllStringIndex cardPattern p.2).map (fun m => (p.1 + 1, m.1, m.2)))).map
        (fun l => (l.1, slice (lines.getD (l.1 - 1 - i) []) l.2.1 l.2.2)) := by
  intro lines
  induction lines with
  | nil => intro i; simp
  | cons x xs ih =>
    intro i
    simp only [List.enumFrom_cons, List.flatMap_cons, List.map_append, List.map_map]
    congr 1
    · simp only [FindAllString, List.map_map]
      apply List.map_congr_left
      intro m _
      have h0 : i + 1 - 1 - i = 0 := by omega
      simp [report_card, h0]
    · have := ih (i + 1)
      simp only [List.map_map] at this
      rw [this]
      apply List.map_congr_left
      intro l hl
      have h1 := ((locs_props xs (i + 1)).1 l hl).1
      have h0 : l.1 - 1 - i = (l.1 - 1 - (i + 1)) + 1 := by omega
      simp only [Function.comp, h0, List.getD_cons_succ]

/-- C8: the findings of `scanText` follow the match locations `matchLocs` one for one
(same line number, raw match equal to the located substring of that line); the
locations are in strictly increasing order of (line number, start offset), two matches
of one line do not overlap, every match lies inside its line, line numbers are the
1-based positions in the list obtained by splitting the text at newlines, and no line
of that list holds a newline. -/
theorem findings_in_order (sha256 : Str → Digest) (path text : Str) :
    (scanText sha256 path text).map (fun f => (f.line, f.card)) =
        (matchLocs text).map
          (fun l => (l.1, slice ((split '\n' text).getD (l.1 - 1) []) l.2.1 l.2.2)) ∧
      (matchLocs text).Pairwise (fun a b => a.1 < b.1 ∨ (a.1 = b.1 ∧ a.2.1 < b.2.1)) ∧
      (matchLocs text).Pairwise (fun a b => a.1 = b.1 → a.2.2 ≤ b.2.1) ∧
      (∀ l ∈ matchLocs text, 1 ≤ l.1 ∧ l.1 ≤ (split '\n' text).length ∧ l.2.1 < l.2.2 ∧
        l.2.2 ≤ ((split '\n' text).getD (l.1 - 1) []).length) ∧
      (∀ line ∈ split '\n' text, '\n' ∉ line) ∧
      List.intercalate ['\n'] (split '\n' text) = text := by
  obtain ⟨hp1, hp2⟩ := locs_props (split '\n' text) 0
  have hall : ∀ l ∈ matchLocs text, 1 ≤ l.1 ∧ l.1 ≤ (split '\n' text).length ∧
      l.2.1 < l.2.2 ∧ l.2.2 ≤ ((split '\n' text).getD (l.1 - 1) []).length := by
    intro l hl
    have := hp1 l hl
    simpa using this
  refine ⟨?_, ?_, ?_, hall, split_no_sep _ text, intercalate_split _ text⟩
  · rw [scanText_eq]
    have := findings_aligned sha256 path (split '\n' text) 0
    simpa [matchLocs, List.enum] using this
  · have hp3 : (matchLocs text).Pairwise (fun a b => a.1 < b.1 ∨ (a.1 = b.1 ∧ a.2.2 ≤ b.2.1)) :=
      hp2
    refine List.Pairwise.imp_of_mem ?_ hp3
    intro a b ha _ hab
    rcases hab with h | ⟨h1, h2⟩
    · exact Or.inl h
    · have := (hall a ha).2.2.1
      exact Or.inr ⟨h1, by omega⟩
  · have hp3 : (matchLocs text).Pairwise (fun a b => a.1 < b.1 ∨ (a.1 = b.1 ∧ a.2.2 ≤ b.2.1)) :=
      hp2
    refine hp3.imp ?_
    intro a b hab heq
    rcases hab with h | ⟨_, h2⟩
    · omega
    · exact h2

/-! ## Luhn validation -/

theorem luhnLoop_cons (c : Char) (cs : List Char) (sum : Nat) (alt : Bool) :
    luhnLoop (c :: cs) sum alt = luhnLoop cs (sum + luhnStep alt c) (!alt) := by
  cases alt <;> simp [luhnLoop, luhnStep]

theorem atoi_digit {c : Char} (h : isDigit c = true) : atoi c = digitValue c := by
  simp [atoi, digitValue, h]

theorem digitValue_le {c : Char} (h : isDigit c = true) : digitValue c ≤ 9 := by
  simp only [isDigit, Bool.and_eq_true, decide_eq_true_eq] at h
  simp only [digitValue]
  omega

theorem luhnLoop_enum :
    ∀ (l : List Char) (sum : Nat) (alt : Bool) (k : Nat),
      (alt = true ↔ k % 2 = 1) → (∀ c ∈ l, isDigit c = true) →
      luhnLoop l sum alt =
        sum + ((l.enumFrom k).map (fun p => luhnTerm p.1 (digitValue p.2))).sum := by
  intro l
  induction l with
  | nil => intro sum alt k _ _; simp [luhnLoop]
  | cons c cs ih =>
    intro sum alt k halt hdig
    have hc : isDigit c = true := hdig c (List.mem_cons_self _ _)
    have hcs : ∀ x ∈ cs, isDigit x = true := fun x hx => hdig x (List.mem_cons_of_mem _ hx)
    have halt2 : ((!alt) = true ↔ (k + 1) % 2 = 1) := by
      cases alt with
      | true => have := halt.mp rfl; simp; omega
      | false =>
        have : ¬ k % 2 = 1 := fun h => by have := halt.mpr h; cases this
        simp; omega
    rw [luhnLoop_cons, ih (sum + luhnStep alt c) (!alt) (k + 1) halt2 hcs]
    have hstep : luhnStep alt c = luhnTerm k (digitValue c) := by
      cases alt with
      | true =>
        have := halt.mp rfl
        simp [luhnStep, luhnTerm, this, atoi_digit hc, Nat.mul_comm]
      | false =>
        have : ¬ k % 2 = 1 := fun h => by have := halt.mpr h; cases this
        simp [luhnStep, luhnTerm, this, atoi_digit hc]
    simp [List.enumFrom_cons, hstep, Nat.add_assoc]

/-- C1: on a non-empty string of digits, `isValidLuhn` holds exactly when the standard
Luhn total (digits taken from the right, every second one from the second-from-right
doubled and reduced by 9 when above 9, all summed) is a multiple of 10; the known
vectors `4111111111111111` and `5500005555555559` are valid, `4111111111111112` and
`1234567890123` are not. -/
theorem isValidLuhn_standard :
    (∀ D : Str, 1 ≤ D.length → (∀ c ∈ D, isDigit c = true) →
      (isValidLuhn D = true ↔ luhnTotal D % 10 = 0)) ∧
    isValidLuhn visaPlain = true ∧ isValidLuhn mcPlain = true ∧
    isValidLuhn badChecksum = false ∧ isValidLuhn thirteenDigits = false := by
  refine ⟨?_, by decide, by decide, by decide, by decide⟩
  intro D _ hdig
  have h := luhnLoop_enum D.reverse 0 false 0 (by simp)
    (fun c hc => hdig c (List.mem_reverse.mp hc))
  simp only [Nat.zero_add] at h
  simp [isValidLuhn, luhnTotal, List.enum, h]

/-- C1, at the Visa test number. -/
theorem isValidLuhn_standard_witness :
    isValidLuhn visaPlain = true ↔ luhnTotal visaPlain % 10 = 0 :=
  isValidLuhn_standard.1 visaPlain (by decide) (by decide)

theorem luhnLoop_acc :
    ∀ (l : List Char) (sum : Nat) (alt : Bool),
      luhnLoop l sum alt = sum + luhnLoop l 0 alt := by
  intro l
  induction l with
  | nil => intro sum alt; simp [luhnLoop]
  | cons c cs ih =>
    intro sum alt
    rw [luhnLoop_cons, luhnLoop_cons, ih (sum + luhnStep alt c), ih (0 + luhnStep alt c)]
    omega

theorem luhnStep_inj (alt : Bool) (x y : Char) (hx : isDigit x = true) (hy : isDigit y = true)
    (a r : Nat) (h1 : (a + luhnStep alt x + r) % 10 = 0)
    (h2 : (a + luhnStep alt y + r) % 10 = 0) : x = y := by
  have hvx := digitValue_le hx
  have hvy := digitValue_le hy
  have hv : digitValue x = digitValue y := by
    cases alt with
    | true =>
      simp only [luhnStep, if_true, atoi_digit hx, atoi_digit hy] at h1 h2
      split_ifs at h1 h2 <;> omega
    | false =>
      simp only [luhnStep, Bool.false_eq_true, if_false, atoi_digit hx, atoi_digit hy] at h1 h2
      omega
  simp only [isDigit, Bool.and_eq_true, decide_eq_true_eq] at hx hy
  simp only [digitValue] at hv
  have ht : x.toNat = y.toNat := by omega
  rw [← Char.ofNat_toNat x, ← Char.ofNat_toNat y, ht]

theorem luhnLoop_subst :
    ∀ (u : List Char) (x y : Char) (v : List Char) (sum : Nat) (alt : Bool),
      isDigit x = true → isDigit y = true →
      luhnLoop (u ++ x :: v) sum alt % 10 = 0 →
      luhnLoop (u ++ y :: v) sum alt % 10 = 0 → x = y := by
  intro u
  induction u with
  | nil =>
    intro x y v sum alt hx hy h1 h2
    simp only [List.nil_append, luhnLoop_cons] at h1 h2
    rw [luhnLoop_acc] at h1 h2
    exact luhnStep_inj alt x y hx hy sum (luhnLoop v 0 (!alt)) h1 h2
  | cons c cs ih =>
    intro x y v sum alt hx hy h1 h2
    simp only [List.cons_append, luhnLoop_cons] at h1 h2
    exact ih x y v _ _ hx hy h1 h2

/-- C10: in a non-empty digit string accepted by `isValidLuhn`, replacing the digit at
any position by a different digit gives a string that `isValidLuhn` rejects. -/
theorem luhn_detects_substitution (D : Str) (_hlen : 1 ≤ D.length)
    (hdig : ∀ c ∈ D, isDigit c = true) (hvalid : isValidLuhn D = true)
    (i : Nat) (hi : i < D.length) (c : Char) (hc : isDigit c = true) (hne : c ≠ D[i]) :
    isValidLuhn (D.set i c) = false := by
  cases hv : isValidLuhn (D.set i c) with
  | false => rfl
  | true =>
    exfalso
    have hD : D = D.take i ++ D[i] :: D.drop (i + 1) := by
      rw [← List.drop_eq_getElem_cons hi, List.take_append_drop]
    have hS : D.set i c = D.take i ++ c :: D.drop (i + 1) := by
      rw [List.set_eq_take_append_cons_drop, if_pos hi]
    have hx : isDigit D[i] = true := hdig _ (List.getElem_mem hi)
    rw [hS] at hv
    rw [hD] at hvalid
    simp only [isValidLuhn, List.reverse_append, List.reverse_cons, List.append_assoc,
      List.singleton_append, beq_iff_eq] at hv hvalid
    exact hne (luhnLoop_subst _ c D[i] _ 0 false hc hx hv hvalid)

/-- C10, at the Visa test number with its last digit replaced by `2`. -/
theorem luhn_detects_substitution_witness :
    visaPlain.set 15 '2' = badChecksum ∧ isValidLuhn (visaPlain.set 15 '2') = false :=
  ⟨by decide,
    luhn_detects_substitution visaPlain (by decide) (by decide) (by decide) 15 (by decide) '2'
      (by decide) (by decide)⟩

/-! ## Classification -/

theorem beginText_run (r : Re) (b a : List Char) :
    (Re.cat .beginText r).run ⟨b, a⟩ = if b.isEmpty then r.run ⟨b, a⟩ else [] := by
  cases b <;> simp [Re.run]

theorem search_beginText_later (r : Re) :
    ∀ (a : List Char) (x : Char) (b : List Char),
      search (Re.cat .beginText r) (x :: b) a = none := by
  intro a
  induction a with
  | nil => intro x b; simp [search, beginText_run]
  | cons y ys ih =>
    intro x b
    simp [search, beginText_run, ih]

theorem matchString_beginText (r : Re) (s : Str) :
    MatchString (Re.cat .beginText r) s = (r.run ⟨[], s⟩).head?.isSome := by
  cases s with
  | nil =>
    simp only [MatchString, search, beginText_run, List.isEmpty_nil, if_true]
    cases (r.run ⟨[], []⟩).head? <;> rfl
  | cons x xs =>
    simp only [MatchString, search, beginText_run, List.isEmpty_nil, if_true]
    cases h : (r.run ⟨[], x :: xs⟩).head? with
    | none => simp [search_beginText_later]
    | some e => rfl

theorem matchString_visa (s : Str) :
    MatchString visaPrefix s = true ↔ ∃ t, s = '4' :: t := by
  rw [visaPrefix, matchString_beginText, cls_run]
  cases s with
  | nil => simp [step]
  | cons x xs =>
    by_cases hx : x = '4'
    · simp [step, hx]
    · simp [step, hx]

theorem one_to_five (c : Char) :
    (decide (49 ≤ c.toNat) && decide (c.toNat ≤ 53)) = true ↔
      (c = '1' ∨ c = '2' ∨ c = '3' ∨ c = '4' ∨ c = '5') := by
  constructor
  · intro h
    simp only [Bool.and_eq_true, decide_eq_true_eq] at h
    have hc : c = Char.ofNat c.toNat := (Char.ofNat_toNat c).symm
    obtain ⟨n, hn⟩ : ∃ n, c.toNat = n := ⟨_, rfl⟩
    rw [hn] at h hc
    obtain ⟨h1, h2⟩ := h
    interval_cases n
    · exact Or.inl hc
    · exact Or.inr (Or.inl hc)
    · exact Or.inr (Or.inr (Or.inl hc))
    · exact Or.inr (Or.inr (Or.inr (Or.inl hc)))
    · exact Or.inr (Or.inr (Or.inr (Or.inr hc)))
  · intro h
    rcases h with h | h | h | h | h <;> subst h <;> decide

theorem matchString_mc (s : Str) :
    MatchString mcPrefix s = true ↔
      ∃ c t, s = '5' :: c :: t ∧ (c = '1' ∨ c = '2' ∨ c = '3' ∨ c = '4' ∨ c = '5') := by
  have hrun : ∀ (p q : Char → Bool) (c : Cursor),
      (Re.cat (.cls p) (.cls q)).run c = (step p c).flatMap (step q) := by
    intro p q c
    show ((Re.cls p).run c).flatMap (Re.cls q).run = _
    rw [cls_run, cls_run]
  rw [mcPrefix, matchString_beginText, hrun]
  cases s with
  | nil => simp [step]
  | cons x xs =>
    by_cases hx : x = '5'
    · cases xs with
      | nil => simp [step, hx]
      | cons y ys =>
        have h15 := one_to_five y
        by_cases hy : (decide (49 ≤ y.toNat) && decide (y.toNat ≤ 53)) = true
        · have := h15.mp hy
          simp only [Bool.and_eq_true, decide_eq_true_eq] at hy
          simp [step, hx, hy, this]
        · have hn : ¬ (y = '1' ∨ y = '2' ∨ y = '3' ∨ y = '4' ∨ y = '5') :=
            fun h => hy (h15.mpr h)
          simp only [Bool.and_eq_true, decide_eq_true_eq] at hy
          simp [step, hx, hy, hn]
    · simp [step, hx]

/-- C2: `detectType` returns one of `Visa`, `MasterCard`, `Unknown`; it returns `Visa`
exactly for the strings starting with `4`, `MasterCard` exactly for those starting with
`51`, `52`, `53`, `54` or `55`, and `Unknown` in every other case, the empty string
included.  The known vectors are classified as Visa, MasterCard and Unknown. -/
theorem detectType_classifies (s : Str) :
    (detectType s = "Visa" ∨ detectType s = "MasterCard" ∨ detectType s = "Unknown") ∧
    (detectType s = "Visa" ↔ ∃ t, s = '4' :: t) ∧
    (detectType s = "MasterCard" ↔
      ∃ c t, s = '5' :: c :: t ∧ (c = '1' ∨ c = '2' ∨ c = '3' ∨ c = '4' ∨ c = '5')) ∧
    (detectType s = "Unknown" ↔
      ¬ (∃ t, s = '4' :: t) ∧
        ¬ (∃ c t, s = '5' :: c :: t ∧ (c = '1' ∨ c = '2' ∨ c = '3' ∨ c = '4' ∨ c = '5'))) ∧
    detectType [] = "Unknown" ∧ detectType visaPlain = "Visa" ∧
    detectType mcPlain = "MasterCard" ∧ detectType discoverPlain = "Unknown" := by
  have hv := matchString_visa s
  have hm := matchString_mc s
  have hexcl : (∃ t, s = '4' :: t) →
      ¬ (∃ c t, s = '5' :: c :: t ∧ (c = '1' ∨ c = '2' ∨ c = '3' ∨ c = '4' ∨ c = '5')) := by
    rintro ⟨t, rfl⟩ ⟨c, t2, h, _⟩
    have := (List.cons.inj h).1
    exact absurd this (by decide)
  have h1 : "Visa" ≠ "MasterCard" := by decide
  have h2 : "Visa" ≠ "Unknown" := by decide
  have h3 : "MasterCard" ≠ "Unknown" := by decide
  refine ⟨?_, ?_, ?_, ?_, by decide, by decide, by decide, by decide⟩
  · unfold detectType
    split_ifs <;> simp
  · unfold detectType
    by_cases hvis : MatchString visaPrefix s = true
    · simp [hvis, hv.mp hvis]
    · have hnv : ¬ ∃ t, s = '4' :: t := fun h => hvis (hv.mpr h)
      by_cases hmc : MatchString mcPrefix s = true
      · simp only [hvis, hmc, if_true, Bool.false_eq_true, if_false]
        exact ⟨fun h => absurd h.symm h1, fun h => absurd h hnv⟩
      · simp only [hvis, hmc, Bool.false_eq_true, if_false]
        exact ⟨fun h => absurd h.symm h2, fun h => absurd h hnv⟩
  · unfold detectType
    by_cases hvis : MatchString visaPrefix s = true
    · simp only [hvis, if_true]
      exact ⟨fun h => absurd h h1, fun h => absurd h (hexcl (hv.mp hvis))⟩
    · by_cases hmc : MatchString mcPrefix s = true
      · simp only [hvis, hmc, if_true, Bool.false_eq_true, if_false, true_iff]
        exact hm.mp hmc
      · simp only [hvis, hmc, Bool.false_eq_true, if_false]
        exact ⟨fun h => absurd h.symm h3, fun h => absurd (hm.mpr h) hmc⟩
  · unfold detectType
    by_cases hvis : MatchString visaPrefix s = true
    · simp only [hvis, if_true]
      exact ⟨fun h => absurd h h2, fun h => absurd (hv.mp hvis) h.1⟩
    · by_cases hmc : MatchString mcPrefix s = true
      · simp only [hvis, hmc, if_true, Bool.false_eq_true, if_false]
        exact ⟨fun h => absurd h h3, fun h => absurd (hm.mp hmc) h.2⟩
      · simp only [hvis, hmc, Bool.false_eq_true, if_false, true_iff]
        exact ⟨fun h => hvis (hv.mpr h), fun h => hmc (hm.mpr h)⟩

end CardScanner
